import Mathlib

/-!
# shift-schedule: the row parser and the merge engine of `main.go`

A shallow embedding of `convertToBool`, of the record loop of `processCSV`
and of `mergeData`, followed by the properties proved about them.

Conventions of the embedding.

* Go strings are Lean `String`s, `[]string` is `List String`, `[][]string`
  is `List (List String)`.
* `map[string][]Row` is iterated by `range` in an order Go leaves
  unspecified.  The source table is therefore a list of
  `(fileName, rows)` pairs, in the order the iteration visits them.
* `map[string]bool` (`uniqueDates`) is only ever asked whether a key is
  present, so it is the list of the keys inserted so far.
* An index expression that is out of range panics in Go; the record loop of
  `processCSV` therefore returns an `Option`, `none` being the panic.
* The rows of `mergedData` are always five cells long (lemma
  `mergeData_row_length`), so the reads `mergedData[i][k]` never panic and are
  written `List.getD`, the writes `List.set`.
-/

namespace ShiftSchedule

/-! ## Data model -/

/-- The struct `Row` of `main.go`. -/
structure Row where
  Date : String
  DayOfWeek : String
  Preferential : Bool
  Available : Bool
  Impossible : Bool
deriving DecidableEq

/-! ## Row parser -/

/-- The library function `strings.ToLower`, which maps every rune of the
string to its lower case.  `Char.toLower` lowers the letters `A`..`Z` and
leaves every other character alone, where Go applies `unicode.ToLower`; the
two agree on ASCII, and no rune outside ASCII has `x` (U+0078) as its lower
case, so a comparison of the result with `"x"` has the same outcome under
both.  The function equals `String.toLower` (lemma `toLower_eq`). -/
def toLower (s : String) : String :=
  ⟨s.data.map Char.toLower⟩

/-- The function `convertToBool`: `strings.ToLower(value) == "x"`. -/
def convertToBool (value : String) : Bool :=
  if toLower value = "x" then true else false

/-- The body of the record loop of `processCSV`: the five positional reads
`record[0]` .. `record[4]` and the construction of the `Row`.  A read past
the end of the record is the panic, `none`. -/
def recordToRow (record : List String) : Option Row := do
  let date ← record[0]?
  let dayOfWeek ← record[1]?
  let preferential ← record[2]?
  let available ← record[3]?
  let impossible ← record[4]?
  pure
    { Date := date
      DayOfWeek := dayOfWeek
      Preferential := convertToBool preferential
      Available := convertToBool available
      Impossible := convertToBool impossible }

/-- The record loop of `processCSV`, `for _, record := range records`, with
`rows` the slice built so far: each record is converted and appended; a
panic ends the loop without a result. -/
def processRecords : List (List String) → List Row → Option (List Row)
  | [], rows => some rows
  | record :: rest, rows =>
    match recordToRow record with
    | none => none
    | some row => processRecords rest (rows ++ [row])

/-- The part of `processCSV` after `reader.ReadAll()`: `rows` starts as the
nil slice and the loop runs over all the records. -/
def processCSVRecords (records : List (List String)) : Option (List Row) :=
  processRecords records []

/-! ## Merge engine -/

/-- The literal appended to `mergedData` on the first row processed. -/
def headerRow : List String :=
  ["Date", "Day of Week", "Preferential", "Available", "Impossible"]

/-- The local state of `mergeData`: the three variables declared before the
loops. -/
structure MergeState where
  mergedData : List (List String)
  uniqueDates : List String
  firstRow : Bool

/-- The state of `mergeData` before the loops. -/
def initState : MergeState :=
  { mergedData := [], uniqueDates := [], firstRow := true }

/-- The update pattern of the `else` branch for one cell:
`if cell != "" { cell += " | " + fileName } else { cell = fileName }`. -/
def appendSource (cell fileName : String) : String :=
  if cell ≠ "" then cell ++ (" | " ++ fileName) else fileName

/-- The construction of `mergedRow` for a date seen for the first time:
the literal with three empty cells, then the three conditional writes. -/
def newMergedRow (fileName : String) (row : Row) : List String :=
  let mergedRow := [row.Date, row.DayOfWeek, "", "", ""]
  let mergedRow := if row.Preferential then mergedRow.set 2 fileName else mergedRow
  let mergedRow := if row.Available then mergedRow.set 3 fileName else mergedRow
  let mergedRow := if row.Impossible then mergedRow.set 4 fileName else mergedRow
  mergedRow

/-- The three conditional updates applied to the row `mergedData[i]` found by
the scan. -/
def updateMergedRow (fileName : String) (row : Row) (m : List String) : List String :=
  let m := if row.Preferential then m.set 2 (appendSource (m.getD 2 "") fileName) else m
  let m := if row.Available then m.set 3 (appendSource (m.getD 3 "") fileName) else m
  let m := if row.Impossible then m.set 4 (appendSource (m.getD 4 "") fileName) else m
  m

/-- The scan `for i := range mergedData` of the `else` branch: the first row
whose cell 0 equals `row.Date` is updated and the scan stops (`break`); the
scan starts at index 0, the header row included. -/
def updateExisting (fileName : String) (row : Row) : List (List String) → List (List String)
  | [] => []
  | m :: rest =>
    if m.getD 0 "" = row.Date then updateMergedRow fileName row m :: rest
    else m :: updateExisting fileName row rest

/-- The body of the inner loop of `mergeData` for one `row` of the source
`fileName`. -/
def mergeStep (fileName : String) (st : MergeState) (row : Row) : MergeState :=
  if row.Date ∉ st.uniqueDates then
    if st.firstRow then
      { mergedData := st.mergedData ++ [headerRow]
        uniqueDates := row.Date :: st.uniqueDates
        firstRow := false }
    else
      { mergedData := st.mergedData ++ [newMergedRow fileName row]
        uniqueDates := row.Date :: st.uniqueDates
        firstRow := st.firstRow }
  else
    { mergedData := updateExisting fileName row st.mergedData
      uniqueDates := st.uniqueDates
      firstRow := st.firstRow }

/-- The inner loop `for _, row := range rows` for one source. -/
def mergeFile (st : MergeState) (source : String × List Row) : MergeState :=
  source.2.foldl (mergeStep source.1) st

/-- The function `mergeData`; `fileRowsMap` is given as the list of its
entries in the order `range` visits them. -/
def mergeData (fileRowsMap : List (String × List Row)) : List (List String) :=
  (fileRowsMap.foldl mergeFile initState).mergedData

/-! ## Vocabulary of the properties -/

/-- The rows of the source table in processing order, each with the
identifier of the source it comes from: the sources in the order they are
visited, the rows of a source in file order. -/
def events (fileRowsMap : List (String × List Row)) : List (String × Row) :=
  fileRowsMap.flatMap fun source => source.2.map fun row => (source.1, row)

/-- The loops of `mergeData` run over the rows in processing order. -/
def run (es : List (String × Row)) : MergeState :=
  es.foldl (fun st e => mergeStep e.1 st e.2) initState

/-- The date of a row of the merged table: its cell 0. -/
def dateOf (m : List String) : String := m.getD 0 ""

/-- Of the rows `es`, those whose date is not in `seen` and does not occur
earlier in `es`: with `seen` empty, the first row of each distinct date. -/
def firstOfEachDate : List String → List (String × Row) → List (String × Row)
  | _, [] => []
  | seen, e :: es =>
    if e.2.Date ∈ seen then firstOfEachDate seen es
    else e :: firstOfEachDate (e.2.Date :: seen) es

/-- The source identifiers of the rows of `es` that have date `d` and the
given flag set, in processing order, one entry per row. -/
def sourcesOf (flag : Row → Bool) (d : String) (es : List (String × Row)) : List String :=
  (es.filter fun e => decide (e.2.Date = d) && flag e.2).map Prod.fst

/-- The `" | "`-join of a list of source identifiers. -/
def joinSources (ids : List String) : String :=
  " | ".intercalate ids

/-- The cell reached from `""` by the update pattern applied to each
identifier in turn. -/
def cellOf (ids : List String) : String :=
  ids.foldl appendSource ""

/-- The row the merged table holds for the row `e` that introduced its date,
once all of `es` is processed.  A row with the date `"Date"` is never
updated, since the scan stops at the header row. -/
def mergedRowOf (es : List (String × Row)) (e : String × Row) : List String :=
  if e.2.Date = "Date" then newMergedRow e.1 e.2
  else
    [e.2.Date, e.2.DayOfWeek, cellOf (sourcesOf Row.Preferential e.2.Date es),
      cellOf (sourcesOf Row.Available e.2.Date es),
      cellOf (sourcesOf Row.Impossible e.2.Date es)]

/-- The `Row` that the loop body of `processCSV` builds from a record with
columns `c0` .. `c4`. -/
def rowOfColumns (c0 c1 c2 c3 c4 : String) : Row :=
  { Date := c0
    DayOfWeek := c1
    Preferential := convertToBool c2
    Available := convertToBool c3
    Impossible := convertToBool c4 }

/-! ## Concrete source tables -/

/-- The row of source `jan` in the scenario of the two sources. -/
def janRow : Row :=
  { Date := "2024-01-01", DayOfWeek := "Mon", Preferential := true, Available := false,
    Impossible := false }

/-- The row of source `feb` in the scenario of the two sources. -/
def febRow : Row :=
  { Date := "2024-01-01", DayOfWeek := "Mon", Preferential := false, Available := true,
    Impossible := false }

/-- The rows of source `jan` in the example table. -/
def janRows : List Row :=
  [⟨"2023-12-31", "Sun", false, false, false⟩, janRow, ⟨"2024-01-02", "Tue", true, false, false⟩]

/-- The rows of source `feb` in the example table. -/
def febRows : List Row :=
  [febRow, ⟨"2024-01-02", "Tue", true, false, true⟩]

/-- A table of three sources, visited in the order `jan`, `feb`, `mar`. -/
def exampleTable : List (String × List Row) :=
  [("jan", janRows), ("feb", febRows), ("mar", [⟨"2024-01-03", "Wed", false, false, true⟩])]

/-- A table whose first source has the empty identifier (the file `.csv`). -/
def emptyIdTable : List (String × List Row) :=
  [("", [⟨"d0", "Mon", false, false, false⟩, ⟨"d1", "Tue", true, false, false⟩]),
    ("b", [⟨"d1", "Tue", true, false, false⟩])]

/-- A table with two rows of date `"Date"` after the first row. -/
def dateLiteralTable : List (String × List Row) :=
  [("a", [⟨"d0", "Mon", false, false, false⟩, ⟨"Date", "Tue", true, false, false⟩,
    ⟨"Date", "Tue", true, false, false⟩])]

/-- A table of one source with two rows, both of date `"Date"` and with the
preferential flag set. -/
def headerCorruptTable : List (String × List Row) :=
  [("a", [⟨"Date", "Mon", true, false, false⟩, ⟨"Date", "Mon", true, false, false⟩])]

/-- The first of two sources whose visiting order shows in the result. -/
def orderSourceA : String × List Row :=
  ("a", [⟨"d0", "Mon", false, false, false⟩, ⟨"d1", "Tue", true, false, false⟩,
    ⟨"d2", "Wed", false, false, false⟩])

/-- The second of two sources whose visiting order shows in the result. -/
def orderSourceB : String × List Row :=
  ("b", [⟨"d0", "Mon", false, false, false⟩, ⟨"d2", "Wed", false, false, false⟩,
    ⟨"d1", "Tue", true, false, false⟩])

/-! ## Lemmas on the embedding -/

theorem toLower_eq (s : String) : toLower s = s.toLower := by
  simp [toLower, String.toLower, String.map_eq]

theorem mergeFile_eq (st : MergeState) (source : String × List Row) :
    mergeFile st source
      = (source.2.map fun row => (source.1, row)).foldl (fun st e => mergeStep e.1 st e.2) st := by
  simp [mergeFile, List.foldl_map]

theorem foldl_mergeFile (table : List (String × List Row)) (st : MergeState) :
    table.foldl mergeFile st = (events table).foldl (fun st e => mergeStep e.1 st e.2) st := by
  induction table generalizing st with
  | nil => rfl
  | cons source table ih =>
    simp only [List.foldl_cons, events, List.flatMap_cons, List.foldl_append]
    rw [ih, mergeFile_eq]
    rfl

theorem mergeData_eq_run (table : List (String × List Row)) :
    mergeData table = (run (events table)).mergedData := by
  simp [mergeData, run, foldl_mergeFile]

theorem newMergedRow_eq (f : String) (r : Row) :
    newMergedRow f r = [r.Date, r.DayOfWeek, if r.Preferential then f else "",
      if r.Available then f else "", if r.Impossible then f else ""] := by
  cases hp : r.Preferential <;> cases ha : r.Available <;> cases hi : r.Impossible <;>
    simp [newMergedRow, hp, ha, hi]

theorem updateMergedRow_eq (f : String) (r : Row) (a b c d e : String) :
    updateMergedRow f r [a, b, c, d, e] = [a, b,
      if r.Preferential then appendSource c f else c,
      if r.Available then appendSource d f else d,
      if r.Impossible then appendSource e f else e] := by
  cases hp : r.Preferential <;> cases ha : r.Available <;> cases hi : r.Impossible <;>
    simp [updateMergedRow, hp, ha, hi]

theorem mem_firstOfEachDate {seen : List String} {es : List (String × Row)} {e : String × Row}
    (h : e ∈ firstOfEachDate seen es) : e ∈ es ∧ e.2.Date ∉ seen := by
  induction es generalizing seen with
  | nil => simp [firstOfEachDate] at h
  | cons x es ih =>
    unfold firstOfEachDate at h
    split at h
    · exact ⟨List.mem_cons_of_mem _ (ih h).1, (ih h).2⟩
    · rcases List.mem_cons.1 h with h | h
      · subst h; exact ⟨List.mem_cons_self _ _, by assumption⟩
      · refine ⟨List.mem_cons_of_mem _ (ih h).1, fun hm => (ih h).2 (List.mem_cons_of_mem _ hm)⟩

theorem firstOfEachDate_nodup (seen : List String) (es : List (String × Row)) :
    ((firstOfEachDate seen es).map fun e => e.2.Date).Nodup := by
  induction es generalizing seen with
  | nil => simp [firstOfEachDate]
  | cons x es ih =>
    unfold firstOfEachDate
    split
    · exact ih seen
    · rw [List.map_cons, List.nodup_cons]
      refine ⟨?_, ih _⟩
      intro hm
      obtain ⟨e, he, hd⟩ := List.mem_map.1 hm
      exact (mem_firstOfEachDate he).2 (by simp [hd])

theorem firstOfEachDate_append_singleton (seen : List String) (es : List (String × Row))
    (e : String × Row) :
    firstOfEachDate seen (es ++ [e]) = firstOfEachDate seen es ++
      (if e.2.Date ∈ seen ∨ e.2.Date ∈ es.map (fun x => x.2.Date) then [] else [e]) := by
  induction es generalizing seen with
  | nil =>
    by_cases h : e.2.Date ∈ seen <;> simp [firstOfEachDate, h]
  | cons x es ih =>
    rw [List.cons_append, firstOfEachDate, firstOfEachDate]
    by_cases hx : x.2.Date ∈ seen
    · rw [if_pos hx, if_pos hx, ih]
      congr 1
      by_cases h1 : e.2.Date ∈ seen
      · simp only [h1, true_or]
      · have : e.2.Date ≠ x.2.Date := fun h => h1 (h ▸ hx)
        simp only [h1, this, List.map_cons, List.mem_cons, false_or]
    · rw [if_neg hx, if_neg hx, ih, List.cons_append]
      congr 2
      by_cases h1 : e.2.Date ∈ seen
      · simp only [h1, List.mem_cons, or_true, true_or]
      · by_cases h2 : e.2.Date = x.2.Date
        · simp only [h2, List.map_cons, List.mem_cons, true_or, or_true]
        · simp only [h1, h2, List.map_cons, List.mem_cons, false_or]

theorem mem_dates_firstOfEachDate (seen : List String) (es : List (String × Row)) (d : String) :
    (d ∈ (firstOfEachDate seen es).map fun e => e.2.Date) ↔
      d ∉ seen ∧ d ∈ es.map fun e => e.2.Date := by
  induction es generalizing seen with
  | nil => simp [firstOfEachDate]
  | cons x es ih =>
    unfold firstOfEachDate
    split
    · rename_i hx
      rw [ih, List.map_cons, List.mem_cons]
      constructor
      · rintro ⟨h1, h2⟩; exact ⟨h1, Or.inr h2⟩
      · rintro ⟨h1, h2 | h2⟩
        · exact absurd (h2 ▸ hx) h1
        · exact ⟨h1, h2⟩
    · rename_i hx
      rw [List.map_cons, List.mem_cons, ih, List.map_cons, List.mem_cons, List.mem_cons]
      constructor
      · rintro (h | ⟨h1, h2⟩)
        · exact ⟨h ▸ hx, Or.inl h⟩
        · exact ⟨fun h => h1 (Or.inr h), Or.inr h2⟩
      · rintro ⟨h1, h2 | h2⟩
        · exact Or.inl h2
        · by_cases hd : d = x.2.Date
          · exact Or.inl hd
          · exact Or.inr ⟨fun h => h.elim hd h1, h2⟩

theorem updateExisting_eq_map (f : String) (r : Row) (body : List (List String))
    (h : (body.map dateOf).Nodup) :
    updateExisting f r body
      = body.map fun m => if dateOf m = r.Date then updateMergedRow f r m else m := by
  induction body with
  | nil => rfl
  | cons m body ih =>
    rw [List.map_cons, List.nodup_cons] at h
    rw [updateExisting, List.map_cons]
    by_cases hm : dateOf m = r.Date
    · have hm0 : m.getD 0 "" = r.Date := hm
      rw [if_pos hm0, if_pos hm]
      congr 1
      symm
      calc body.map (fun m => if dateOf m = r.Date then updateMergedRow f r m else m)
          = body.map id := by
            apply List.map_congr_left
            intro m1 hm1
            have : dateOf m1 ≠ r.Date := fun heq =>
              h.1 (List.mem_map.2 ⟨m1, hm1, heq.trans hm.symm⟩)
            simp only [if_neg this, id]
        _ = body := List.map_id _
    · have hm0 : ¬ m.getD 0 "" = r.Date := hm
      rw [if_neg hm0, if_neg hm, ih h.2]

theorem sourcesOf_append (flag : Row → Bool) (d : String) (es1 es2 : List (String × Row)) :
    sourcesOf flag d (es1 ++ es2) = sourcesOf flag d es1 ++ sourcesOf flag d es2 := by
  simp [sourcesOf]

theorem sourcesOf_singleton (flag : Row → Bool) (d f : String) (r : Row) :
    sourcesOf flag d [(f, r)] = if r.Date = d ∧ flag r = true then [f] else [] := by
  by_cases h1 : r.Date = d <;> cases h2 : flag r <;> simp [sourcesOf, h1, h2]

theorem sourcesOf_eq_nil (flag : Row → Bool) (d : String) (es : List (String × Row))
    (h : d ∉ es.map fun e => e.2.Date) : sourcesOf flag d es = [] := by
  unfold sourcesOf
  rw [List.map_eq_nil_iff, List.filter_eq_nil_iff]
  intro e he
  have : e.2.Date ≠ d := fun heq => h (List.mem_map.2 ⟨e, he, heq⟩)
  simp [this]

theorem dateOf_mergedRowOf (es : List (String × Row)) (e : String × Row) :
    dateOf (mergedRowOf es e) = e.2.Date := by
  unfold mergedRowOf
  split <;> simp [dateOf, newMergedRow_eq]

theorem mergedRowOf_snoc_ne (es : List (String × Row)) (e : String × Row) (f : String) (r : Row)
    (h : e.2.Date ≠ r.Date ∨ e.2.Date = "Date") :
    mergedRowOf (es ++ [(f, r)]) e = mergedRowOf es e := by
  unfold mergedRowOf
  by_cases hd : e.2.Date = "Date"
  · rw [if_pos hd, if_pos hd]
  · have hne : ¬ r.Date = e.2.Date := fun heq => h.elim (fun h1 => h1 heq.symm) hd
    rw [if_neg hd, if_neg hd]
    simp only [sourcesOf_append, sourcesOf_singleton, hne, false_and, if_false, List.append_nil]

theorem mergedRowOf_snoc_eq (es : List (String × Row)) (e : String × Row) (f : String) (r : Row)
    (h : e.2.Date = r.Date) (hd : e.2.Date ≠ "Date") :
    mergedRowOf (es ++ [(f, r)]) e = updateMergedRow f r (mergedRowOf es e) := by
  unfold mergedRowOf
  rw [if_neg hd, if_neg hd, updateMergedRow_eq]
  simp only [sourcesOf_append, sourcesOf_singleton, h, true_and, cellOf]
  cases r.Preferential <;> cases r.Available <;> cases r.Impossible <;>
    simp [List.foldl_append]

theorem mergedRowOf_snoc_self (es : List (String × Row)) (f : String) (r : Row)
    (h : r.Date ∉ es.map fun e => e.2.Date) :
    mergedRowOf (es ++ [(f, r)]) (f, r) = newMergedRow f r := by
  unfold mergedRowOf
  by_cases hd : r.Date = "Date"
  · rw [if_pos hd]
  · rw [if_neg hd, newMergedRow_eq]
    simp only [sourcesOf_append, sourcesOf_singleton, sourcesOf_eq_nil _ _ _ h, true_and,
      List.nil_append, cellOf]
    cases r.Preferential <;> cases r.Available <;> cases r.Impossible <;>
      simp [appendSource]

theorem run_append_singleton (es : List (String × Row)) (e : String × Row) :
    run (es ++ [e]) = mergeStep e.1 (run es) e.2 := by
  simp [run, List.foldl_append]

/-- The state of `mergeData` after a non-empty sequence of rows: a header
row with the two literal first cells, one row per further distinct date in
order of first occurrence, every date processed recorded in `uniqueDates`. -/
theorem run_cons (e0 : String × Row) (rest : List (String × Row)) :
    ∃ c2 c3 c4 : String,
      (run (e0 :: rest)).mergedData
        = ["Date", "Day of Week", c2, c3, c4]
          :: (firstOfEachDate [e0.2.Date] rest).map (mergedRowOf (e0 :: rest)) ∧
      (∀ d, d ∈ (run (e0 :: rest)).uniqueDates ↔ d ∈ (e0 :: rest).map fun e => e.2.Date) ∧
      (run (e0 :: rest)).firstRow = false := by
  induction rest using List.reverseRecOn with
  | nil =>
    refine ⟨"Preferential", "Available", "Impossible", ?_, ?_, ?_⟩ <;>
      simp [run, mergeStep, initState, headerRow, firstOfEachDate]
  | append_singleton rest e ih =>
    obtain ⟨c2, c3, c4, hdata, hseen, hfirst⟩ := ih
    have hrun : run (e0 :: (rest ++ [e])) = mergeStep e.1 (run (e0 :: rest)) e.2 := by
      rw [← List.cons_append, run_append_singleton]
    have hE := firstOfEachDate_append_singleton [e0.2.Date] rest e
    have hdates : (e.2.Date ∈ [e0.2.Date] ∨ e.2.Date ∈ rest.map fun x => x.2.Date) ↔
        e.2.Date ∈ (run (e0 :: rest)).uniqueDates := by
      simp only [hseen, List.map_cons, List.mem_cons, List.mem_nil_iff, or_false]
    have hnodup : ((firstOfEachDate [e0.2.Date] rest).map (mergedRowOf (e0 :: rest))).map dateOf
        = (firstOfEachDate [e0.2.Date] rest).map fun e => e.2.Date := by
      rw [List.map_map]
      apply List.map_congr_left
      intro x _
      exact dateOf_mergedRowOf _ _
    by_cases hs : e.2.Date ∈ (run (e0 :: rest)).uniqueDates
    · -- the date was seen: the scan updates one row
      have hstep : mergeStep e.1 (run (e0 :: rest)) e.2 =
          { mergedData := updateExisting e.1 e.2 (run (e0 :: rest)).mergedData
            uniqueDates := (run (e0 :: rest)).uniqueDates
            firstRow := (run (e0 :: rest)).firstRow } := by
        simp [mergeStep, hs]
      rw [if_pos (hdates.2 hs), List.append_nil] at hE
      have hsnd : ∀ d, d ∈ (run (e0 :: rest)).uniqueDates ↔
          d ∈ (e0 :: (rest ++ [e])).map fun e => e.2.Date := by
        intro d
        rw [hseen]
        simp only [List.map_cons, List.map_append, List.mem_cons, List.mem_append,
          List.mem_singleton, List.map_nil, List.mem_nil_iff, or_false]
        constructor
        · rintro (h | h)
          · exact Or.inl h
          · exact Or.inr (Or.inl h)
        · rintro (h | h | h)
          · exact Or.inl h
          · exact Or.inr h
          · have := (hseen e.2.Date).1 hs
            rw [List.map_cons, List.mem_cons] at this
            exact h ▸ this
      by_cases hd : e.2.Date = "Date"
      · -- the scan stops at the header row
        have hupd : updateExisting e.1 e.2 (run (e0 :: rest)).mergedData
            = updateMergedRow e.1 e.2 ["Date", "Day of Week", c2, c3, c4]
              :: (firstOfEachDate [e0.2.Date] rest).map (mergedRowOf (e0 :: rest)) := by
          rw [hdata, updateExisting, if_pos (by simp [hd])]
        rw [updateMergedRow_eq] at hupd
        refine ⟨if e.2.Preferential = true then appendSource c2 e.1 else c2,
          if e.2.Available = true then appendSource c3 e.1 else c3,
          if e.2.Impossible = true then appendSource c4 e.1 else c4, ?_, ?_, ?_⟩
        · rw [hrun, hstep, hE]
          simp only
          rw [hupd]
          congr 1
          apply List.map_congr_left
          intro x _
          rw [← List.cons_append]
          by_cases hx : x.2.Date = "Date"
          · exact (mergedRowOf_snoc_ne _ _ _ _ (Or.inr hx)).symm
          · exact (mergedRowOf_snoc_ne _ _ _ _ (Or.inl (fun h => hx (h.trans hd)))).symm
        · rw [hrun, hstep]; exact hsnd
        · rw [hrun, hstep]; exact hfirst
      · -- the scan passes the header row and updates the row of the date
        have hupd : updateExisting e.1 e.2 (run (e0 :: rest)).mergedData
            = ["Date", "Day of Week", c2, c3, c4]
              :: ((firstOfEachDate [e0.2.Date] rest).map (mergedRowOf (e0 :: rest))).map
                  fun m => if dateOf m = e.2.Date then updateMergedRow e.1 e.2 m else m := by
          rw [hdata, updateExisting, if_neg (by simpa using fun h => hd h.symm)]
          rw [updateExisting_eq_map]
          rw [hnodup]
          exact firstOfEachDate_nodup _ _
        refine ⟨c2, c3, c4, ?_, ?_, ?_⟩
        · rw [hrun, hstep, hE]
          simp only
          rw [hupd, List.map_map]
          congr 1
          apply List.map_congr_left
          intro x _
          rw [← List.cons_append]
          simp only [Function.comp, dateOf_mergedRowOf]
          by_cases hx : x.2.Date = e.2.Date
          · rw [if_pos hx]
            exact (mergedRowOf_snoc_eq _ _ _ _ hx (fun h => hd (hx ▸ h))).symm
          · rw [if_neg hx]
            exact (mergedRowOf_snoc_ne _ _ _ _ (Or.inl hx)).symm
        · rw [hrun, hstep]; exact hsnd
        · rw [hrun, hstep]; exact hfirst
    · -- a new date: a row is appended
      have hstep : mergeStep e.1 (run (e0 :: rest)) e.2 =
          { mergedData := (run (e0 :: rest)).mergedData ++ [newMergedRow e.1 e.2]
            uniqueDates := e.2.Date :: (run (e0 :: rest)).uniqueDates
            firstRow := (run (e0 :: rest)).firstRow } := by
        simp [mergeStep, hs, hfirst]
      rw [if_neg (fun h => hs (hdates.1 h))] at hE
      have hnew : e.2.Date ∉ (e0 :: rest).map fun x => x.2.Date :=
        fun h => hs ((hseen _).2 h)
      refine ⟨c2, c3, c4, ?_, ?_, ?_⟩
      · rw [hrun, hstep, hE]
        simp only
        rw [hdata, List.cons_append, List.map_append, List.map_singleton]
        congr 2
        · apply List.map_congr_left
          intro x hx
          rw [← List.cons_append]
          refine (mergedRowOf_snoc_ne _ _ _ _ (Or.inl ?_)).symm
          intro heq
          apply hnew
          rw [← heq]
          exact List.mem_map.2 ⟨x, List.mem_cons_of_mem _ (mem_firstOfEachDate hx).1, rfl⟩
        · exact congrArg (fun x => [x]) (mergedRowOf_snoc_self (e0 :: rest) e.1 e.2 hnew).symm
      · intro d
        rw [hrun, hstep]
        simp only [List.mem_cons, hseen, List.map_cons, List.map_append, List.mem_append,
          List.mem_singleton, List.map_nil, List.mem_nil_iff, or_false]
        constructor
        · rintro (h | h | h)
          · exact Or.inr (Or.inr h)
          · exact Or.inl h
          · exact Or.inr (Or.inl h)
        · rintro (h | h | h)
          · exact Or.inr (Or.inl h)
          · exact Or.inr (Or.inr h)
          · exact Or.inl h
      · rw [hrun, hstep]; exact hfirst

theorem mergeData_of_events_nil (table : List (String × List Row)) (h : events table = []) :
    mergeData table = [] := by
  rw [mergeData_eq_run, h]
  rfl

theorem mergeData_of_events_cons (table : List (String × List Row)) (e0 : String × Row)
    (rest : List (String × Row)) (h : events table = e0 :: rest) :
    ∃ c2 c3 c4 : String,
      mergeData table = ["Date", "Day of Week", c2, c3, c4]
        :: (firstOfEachDate [e0.2.Date] rest).map (mergedRowOf (events table)) := by
  obtain ⟨c2, c3, c4, hdata, -, -⟩ := run_cons e0 rest
  exact ⟨c2, c3, c4, by rw [mergeData_eq_run, h, hdata]⟩

/-- Every row of the merged table has five cells, so no index expression of
`mergeData` is out of range. -/
theorem mergeData_row_length (table : List (String × List Row)) :
    ∀ m ∈ mergeData table, m.length = 5 := by
  intro m hm
  cases hev : events table with
  | nil => rw [mergeData_of_events_nil table hev] at hm; simp at hm
  | cons e0 rest =>
    obtain ⟨c2, c3, c4, hdata⟩ := mergeData_of_events_cons table e0 rest hev
    rw [hdata] at hm
    rcases List.mem_cons.1 hm with h | h
    · rw [h]; rfl
    · obtain ⟨e, -, rfl⟩ := List.mem_map.1 h
      unfold mergedRowOf
      split
      · rw [newMergedRow_eq]; rfl
      · rfl

theorem dayOfWeek_mergedRowOf (es : List (String × Row)) (e : String × Row) :
    (mergedRowOf es e).getD 1 "" = e.2.DayOfWeek := by
  unfold mergedRowOf
  split <;> simp [newMergedRow_eq]

theorem append_ne_empty (a b : String) (h : a ≠ "") : a ++ b ≠ "" := by
  intro hab
  apply h
  have h1 : (a ++ b).data = [] := by rw [hab]
  rw [String.data_append, List.append_eq_nil] at h1
  exact String.ext h1.1

theorem foldl_appendSource_of_ne (ids : List String) (acc : String) (h : acc ≠ "") :
    ids.foldl appendSource acc = String.intercalate.go acc " | " ids := by
  induction ids generalizing acc with
  | nil => rfl
  | cons a ids ih =>
    rw [List.foldl_cons, String.intercalate.go]
    have hstep : appendSource acc a = acc ++ " | " ++ a := by
      unfold appendSource
      rw [if_pos h, String.append_assoc]
    rw [hstep]
    exact ih _ (by rw [String.append_assoc]; exact append_ne_empty _ _ h)

/-- The update pattern applied from the empty cell yields the join of the
identifiers once the leading empty identifiers are removed: an empty cell is
taken for a cell without a source. -/
theorem cellOf_eq_join (ids : List String) :
    cellOf ids = joinSources (ids.dropWhile fun s => decide (s = "")) := by
  induction ids with
  | nil => rfl
  | cons a ids ih =>
    have hstep : cellOf (a :: ids) = ids.foldl appendSource a := by
      simp [cellOf, appendSource]
    by_cases ha : a = ""
    · rw [hstep, ha]
      rw [List.dropWhile_cons_of_pos (by simp)]
      exact ih
    · rw [hstep, List.dropWhile_cons_of_neg (by simpa using ha), foldl_appendSource_of_ne _ _ ha]
      rfl

theorem sourcesOf_eq_filter (flag : Row → Bool) (d : String) (es : List (String × Row)) :
    sourcesOf flag d es
      = ((es.filter fun e => decide (e.2.Date = d)).filter fun e => flag e.2).map Prod.fst := by
  unfold sourcesOf
  rw [List.filter_filter]
  congr 2
  funext e
  exact Bool.and_comm _ _

theorem filter_date_eq_singleton {l : List (String × Row)}
    (h : (l.map fun e => e.2.Date).Nodup) {e : String × Row} (he : e ∈ l) :
    l.filter (fun x => decide (x.2.Date = e.2.Date)) = [e] := by
  induction l with
  | nil => simp at he
  | cons x l ih =>
    rw [List.map_cons, List.nodup_cons] at h
    rcases List.mem_cons.1 he with hx | hx
    · subst hx
      rw [List.filter_cons_of_pos (by simp)]
      congr 1
      rw [List.filter_eq_nil_iff]
      intro y hy
      have : y.2.Date ≠ e.2.Date := fun heq => h.1 (List.mem_map.2 ⟨y, hy, heq⟩)
      simpa using this
    · have : x.2.Date ≠ e.2.Date := fun heq => h.1 (List.mem_map.2 ⟨e, hx, heq.symm⟩)
      rw [List.filter_cons_of_neg (by simpa using this)]
      exact ih h.2 hx

theorem length_firstOfEachDate (es : List (String × Row)) :
    (firstOfEachDate [] es).length = (es.map fun e => e.2.Date).dedup.length := by
  have h1 := firstOfEachDate_nodup [] es
  have h2 : ((firstOfEachDate [] es).map fun e => e.2.Date).toFinset
      = (es.map fun e => e.2.Date).toFinset := by
    ext d
    rw [List.mem_toFinset, List.mem_toFinset, mem_dates_firstOfEachDate]
    simp
  rw [← List.card_toFinset, ← h2, List.toFinset_card_of_nodup h1, List.length_map]

/-! ### Rows of one date in a table with distinct identifiers -/

/-- The rows of date `d` that the source `s` contributes, with its identifier. -/
theorem filter_events (d : String) (table : List (String × List Row)) :
    (events table).filter (fun e => decide (e.2.Date = d))
      = table.flatMap fun s => (s.2.filter fun r => decide (r.Date = d)).map fun r => (s.1, r) := by
  unfold events
  rw [List.filter_flatMap]
  congr 1
  funext s
  rw [List.filter_map]
  rfl

theorem flatMap_eq_nil_of_forall {α β : Type} (g : α → List β) (l : List α)
    (h : ∀ s ∈ l, g s = []) : l.flatMap g = [] := by
  induction l with
  | nil => rfl
  | cons x l ih =>
    rw [List.flatMap_cons, h x (List.mem_cons_self _ _),
      ih (fun s hs => h s (List.mem_cons_of_mem _ hs))]
    rfl

theorem flatMap_eq_of_one {β : Type} (g : String × List Row → List β)
    (l : List (String × List Row)) (h : (l.map Prod.fst).Nodup) (b : String × List Row)
    (hb : b ∈ l) (hrest : ∀ s ∈ l, s.1 ≠ b.1 → g s = []) : l.flatMap g = g b := by
  induction l with
  | nil => simp at hb
  | cons x l ih =>
    rw [List.map_cons, List.nodup_cons] at h
    rw [List.flatMap_cons]
    rcases List.mem_cons.1 hb with hx | hx
    · subst hx
      rw [flatMap_eq_nil_of_forall g l, List.append_nil]
      intro s hs
      exact hrest s (List.mem_cons_of_mem _ hs)
        (fun heq => h.1 (List.mem_map.2 ⟨s, hs, heq⟩))
    · have hxb : x.1 ≠ b.1 := fun heq => h.1 (List.mem_map.2 ⟨b, hx, heq.symm⟩)
      rw [hrest x (List.mem_cons_self _ _) hxb, List.nil_append]
      exact ih h.2 hx (fun s hs => hrest s (List.mem_cons_of_mem _ hs))

theorem flatMap_eq_of_two {β : Type} (g : String × List Row → List β)
    (l : List (String × List Row)) (h : (l.map Prod.fst).Nodup) (a b : String × List Row)
    (ha : a ∈ l) (hb : b ∈ l) (hab : a.1 ≠ b.1)
    (hrest : ∀ s ∈ l, s.1 ≠ a.1 → s.1 ≠ b.1 → g s = []) :
    l.flatMap g = g a ++ g b ∨ l.flatMap g = g b ++ g a := by
  induction l with
  | nil => simp at ha
  | cons x l ih =>
    have hnd := h
    rw [List.map_cons, List.nodup_cons] at h
    rw [List.flatMap_cons]
    rcases List.mem_cons.1 ha with hxa | hxa
    · subst hxa
      rcases List.mem_cons.1 hb with hxb | hxb
      · exact absurd (congrArg Prod.fst hxb).symm hab
      · left
        congr 1
        apply flatMap_eq_of_one g l h.2 b hxb
        intro s hs hsb
        exact hrest s (List.mem_cons_of_mem _ hs)
          (fun heq => h.1 (List.mem_map.2 ⟨s, hs, heq⟩)) hsb
    · rcases List.mem_cons.1 hb with hxb | hxb
      · subst hxb
        right
        congr 1
        apply flatMap_eq_of_one g l h.2 a hxa
        intro s hs hsa
        exact hrest s (List.mem_cons_of_mem _ hs) hsa
          (fun heq => h.1 (List.mem_map.2 ⟨s, hs, heq⟩))
      · have h1 : x.1 ≠ a.1 := fun heq => h.1 (List.mem_map.2 ⟨a, hxa, heq.symm⟩)
        have h2 : x.1 ≠ b.1 := fun heq => h.1 (List.mem_map.2 ⟨b, hxb, heq.symm⟩)
        rw [hrest x (List.mem_cons_self _ _) h1 h2, List.nil_append]
        exact ih h.2 hxa hxb (fun s hs => hrest s (List.mem_cons_of_mem _ hs))

theorem mem_events {table : List (String × List Row)} {e : String × Row} (h : e ∈ events table) :
    ∃ s ∈ table, s.1 = e.1 ∧ e.2 ∈ s.2 := by
  unfold events at h
  obtain ⟨s, hs, he⟩ := List.mem_flatMap.1 h
  obtain ⟨r, hr, rfl⟩ := List.mem_map.1 he
  exact ⟨s, hs, rfl, hr⟩

theorem dropWhile_empty_of_sources (flag : Row → Bool) (d : String)
    (table : List (String × List Row)) (h : ∀ s ∈ table, s.1 ≠ "") :
    (sourcesOf flag d (events table)).dropWhile (fun s => decide (s = ""))
      = sourcesOf flag d (events table) := by
  cases hl : sourcesOf flag d (events table) with
  | nil => rfl
  | cons a t =>
    have ha : a ∈ sourcesOf flag d (events table) := by rw [hl]; exact List.mem_cons_self _ _
    unfold sourcesOf at ha
    obtain ⟨e, he, rfl⟩ := List.mem_map.1 ha
    obtain ⟨s, hs, hse, -⟩ := mem_events (List.mem_filter.1 he).1
    have : e.1 ≠ "" := hse ▸ h s hs
    rw [List.dropWhile_cons_of_neg (by simpa using this)]

/-! ## Lemmas on the row parser -/

theorem char_toLower_eq_x (c : Char) : c.toLower = 'x' ↔ c = 'x' ∨ c = 'X' := by
  unfold Char.toLower
  simp only
  split
  · rename_i h
    obtain ⟨h1, h2⟩ := h
    have hc : c = Char.ofNat c.toNat := (Char.ofNat_toNat c).symm
    generalize c.toNat = n at *
    subst hc
    interval_cases n <;> decide
  · rename_i h
    constructor
    · intro h1; exact Or.inl h1
    · rintro (h1 | h1)
      · exact h1
      · subst h1; exact absurd (by decide) h

theorem toLower_eq_x (s : String) : toLower s = "x" ↔ ∃ c, s = ⟨[c]⟩ ∧ c.toLower = 'x' := by
  unfold toLower
  rw [String.ext_iff]
  show s.data.map Char.toLower = ['x'] ↔ _
  constructor
  · intro h
    rcases hs : s.data with _ | ⟨c, _ | ⟨c1, t⟩⟩
    · rw [hs] at h; simp at h
    · rw [hs] at h
      exact ⟨c, String.ext hs, by simpa using h⟩
    · rw [hs] at h; simp at h
  · rintro ⟨c, rfl, h⟩
    simp [h]

theorem recordToRow_of_five (c0 c1 c2 c3 c4 : String) (t : List String) :
    recordToRow (c0 :: c1 :: c2 :: c3 :: c4 :: t) = some (rowOfColumns c0 c1 c2 c3 c4) := by
  simp [recordToRow, rowOfColumns]

theorem recordToRow_eq_none (record : List String) :
    recordToRow record = none ↔ record.length < 5 := by
  rcases record with _ | ⟨c0, _ | ⟨c1, _ | ⟨c2, _ | ⟨c3, _ | ⟨c4, t⟩⟩⟩⟩⟩ <;>
    simp [recordToRow]

theorem processRecords_eq_none (records : List (List String)) (rows : List Row) :
    processRecords records rows = none ↔ ∃ record ∈ records, record.length < 5 := by
  induction records generalizing rows with
  | nil => simp [processRecords]
  | cons record rest ih =>
    rw [processRecords]
    cases h : recordToRow record with
    | none =>
      simp only [true_iff]
      exact ⟨record, List.mem_cons_self _ _, (recordToRow_eq_none record).1 h⟩
    | some row =>
      simp only [ih, List.mem_cons, exists_eq_or_imp]
      have : ¬ record.length < 5 := fun hlt => by
        rw [(recordToRow_eq_none record).2 hlt] at h
        exact Option.noConfusion h
      simp [this]

theorem processRecords_eq_some (records : List (List String)) (rows : List Row)
    (h : ∀ record ∈ records, 5 ≤ record.length) :
    processRecords records rows = some (rows ++ records.map fun record =>
      rowOfColumns (record.getD 0 "") (record.getD 1 "") (record.getD 2 "")
        (record.getD 3 "") (record.getD 4 "")) := by
  induction records generalizing rows with
  | nil => simp [processRecords]
  | cons record rest ih =>
    have h5 := h record (List.mem_cons_self _ _)
    rcases record with _ | ⟨c0, _ | ⟨c1, _ | ⟨c2, _ | ⟨c3, _ | ⟨c4, t⟩⟩⟩⟩⟩
    all_goals try (simp at h5; done)
    rw [processRecords, recordToRow_of_five]
    simp only
    rw [ih _ (fun r hr => h r (List.mem_cons_of_mem _ hr))]
    simp

/-! ## Properties of the row parser -/

/-- C7: `convertToBool s` is true exactly when `s` is `"x"` or `"X"`; it is
false for the empty string, for `"y"`, for `"1"` and for the untrimmed
`"  x"`. -/
theorem convertToBool_true_iff :
    (∀ s : String, convertToBool s = true ↔ s = "x" ∨ s = "X") ∧
      convertToBool "" = false ∧ convertToBool "y" = false ∧
      convertToBool "1" = false ∧ convertToBool "  x" = false := by
  refine ⟨fun s => ?_, by decide, by decide, by decide, by decide⟩
  unfold convertToBool
  simp only [ite_eq_left_iff, Bool.false_eq_true, imp_false, not_not]
  rw [toLower_eq_x]
  constructor
  · rintro ⟨c, rfl, hc⟩
    rcases (char_toLower_eq_x c).1 hc with h | h
    · subst h; exact Or.inl rfl
    · subst h; exact Or.inr rfl
  · rintro (h | h)
    · exact ⟨'x', h, by decide⟩
    · exact ⟨'X', h, by decide⟩

/-- C8: on records that all have at least five columns the record loop of
`processCSV` returns a row list of the same length; its i-th row is built
from columns 0 to 4 of the i-th record, the flags through `convertToBool`;
no record is skipped, the order is kept, and cutting every record down to
its first five columns does not change the result. -/
theorem processCSVRecords_of_five_columns (records : List (List String))
    (h : ∀ record ∈ records, 5 ≤ record.length) :
    ∃ rows : List Row, processCSVRecords records = some rows ∧
      rows.length = records.length ∧
      (∀ (i : Nat) (record : List String), records[i]? = some record →
        ∃ c0 c1 c2 c3 c4 : String,
          record[0]? = some c0 ∧ record[1]? = some c1 ∧ record[2]? = some c2 ∧
          record[3]? = some c3 ∧ record[4]? = some c4 ∧
          rows[i]? = some
            ({ Date := c0
               DayOfWeek := c1
               Preferential := convertToBool c2
               Available := convertToBool c3
               Impossible := convertToBool c4 } : Row)) ∧
      processCSVRecords (records.map (List.take 5)) = some rows := by
  refine ⟨_, processRecords_eq_some records [] h, by simp, ?_, ?_⟩
  · intro i record hi
    have h5 := h record (List.getElem?_mem hi)
    rcases record with _ | ⟨c0, _ | ⟨c1, _ | ⟨c2, _ | ⟨c3, _ | ⟨c4, t⟩⟩⟩⟩⟩
    all_goals try (simp at h5; done)
    refine ⟨c0, c1, c2, c3, c4, by simp, by simp, by simp, by simp, by simp, ?_⟩
    simp [List.getElem?_map, hi, rowOfColumns]
  · unfold processCSVRecords
    rw [processRecords_eq_some]
    · simp only [List.nil_append, List.map_map, Option.some.injEq]
      apply List.map_congr_left
      intro record hr
      have h5 := h record hr
      rcases record with _ | ⟨c0, _ | ⟨c1, _ | ⟨c2, _ | ⟨c3, _ | ⟨c4, t⟩⟩⟩⟩⟩
      all_goals try (simp at h5; done)
      simp
    · intro record hr
      obtain ⟨r0, hr0, rfl⟩ := List.mem_map.1 hr
      have h5 := h r0 hr0
      simp only [List.length_take]
      omega

/-- Witness for C8: two records, the first with a sixth column. -/
theorem processCSVRecords_of_five_columns_witness :
    (∀ record ∈ [["2024-01-01", "Mon", "x", "", "X", "note"], ["2024-01-02", "Tue", "", "y", ""]],
      5 ≤ record.length) ∧
    ∃ rows : List Row,
      processCSVRecords [["2024-01-01", "Mon", "x", "", "X", "note"],
        ["2024-01-02", "Tue", "", "y", ""]] = some rows ∧
      rows.length = [["2024-01-01", "Mon", "x", "", "X", "note"],
        ["2024-01-02", "Tue", "", "y", ""]].length ∧
      (∀ (i : Nat) (record : List String), [["2024-01-01", "Mon", "x", "", "X", "note"],
          ["2024-01-02", "Tue", "", "y", ""]][i]? = some record →
        ∃ c0 c1 c2 c3 c4 : String,
          record[0]? = some c0 ∧ record[1]? = some c1 ∧ record[2]? = some c2 ∧
          record[3]? = some c3 ∧ record[4]? = some c4 ∧
          rows[i]? = some
            ({ Date := c0
               DayOfWeek := c1
               Preferential := convertToBool c2
               Available := convertToBool c3
               Impossible := convertToBool c4 } : Row)) ∧
      processCSVRecords ([["2024-01-01", "Mon", "x", "", "X", "note"],
        ["2024-01-02", "Tue", "", "y", ""]].map (List.take 5)) = some rows :=
  ⟨by decide, processCSVRecords_of_five_columns _ (by decide)⟩

/-- C9: the record loop of `processCSV` faults exactly when some record has
fewer than five columns, and then it returns no row list at all: the
records before and after the short one are not delivered. -/
theorem processCSVRecords_fault_iff (records : List (List String)) :
    (processCSVRecords records = none ↔ ∃ record ∈ records, record.length < 5) ∧
      ((∃ record ∈ records, record.length < 5) →
        ∀ rows : List Row, processCSVRecords records ≠ some rows) := by
  have h := processRecords_eq_none records []
  refine ⟨h, fun hex rows hsome => ?_⟩
  have hnone : processCSVRecords records = none := h.2 hex
  rw [hnone] at hsome
  exact Option.noConfusion hsome

/-! ## Properties of the merge engine -/

/-- C1: in the result of `mergeData` no two rows after the header row have
the same date (cell 0); every date occurs at most once among them. -/
theorem mergeData_dates_unique (table : List (String × List Row)) :
    ((mergeData table).tail.map dateOf).Nodup ∧
      ∀ d : String, ((mergeData table).tail.map dateOf).count d ≤ 1 := by
  have h : ((mergeData table).tail.map dateOf).Nodup := by
    cases hev : events table with
    | nil => rw [mergeData_of_events_nil table hev]; simp
    | cons e0 rest =>
      obtain ⟨c2, c3, c4, hdata⟩ := mergeData_of_events_cons table e0 rest hev
      rw [hdata, List.tail_cons, List.map_map]
      have : (dateOf ∘ mergedRowOf (events table)) = fun e => e.2.Date := by
        funext e
        exact dateOf_mergedRowOf _ _
      rw [this]
      exact firstOfEachDate_nodup _ _
  exact ⟨h, fun d => List.nodup_iff_count_le_one.1 h d⟩

/-- C5: the date of the first row processed does not occur as the date of a
row after the header row of the result, whatever rows follow. -/
theorem first_date_dropped (table : List (String × List Row)) (e0 : String × Row)
    (h : (events table).head? = some e0) :
    e0.2.Date ∉ (mergeData table).tail.map dateOf := by
  cases hev : events table with
  | nil => rw [hev] at h; simp at h
  | cons e1 rest =>
    rw [hev] at h
    simp only [List.head?_cons, Option.some.injEq] at h
    subst h
    obtain ⟨c2, c3, c4, hdata⟩ := mergeData_of_events_cons table e1 rest hev
    rw [hdata, List.tail_cons, List.map_map]
    intro hm
    obtain ⟨e, he, hd⟩ := List.mem_map.1 hm
    simp only [Function.comp, dateOf_mergedRowOf] at hd
    exact (mem_firstOfEachDate he).2 (by simp [hd])

/-- Witness for C5: the example table, whose first row has date 2023-12-31. -/
theorem first_date_dropped_witness :
    (events exampleTable).head? = some ("jan", ⟨"2023-12-31", "Sun", false, false, false⟩) ∧
      "2023-12-31" ∉ (mergeData exampleTable).tail.map dateOf :=
  ⟨by decide, first_date_dropped exampleTable ("jan", ⟨"2023-12-31", "Sun", false, false, false⟩)
    (by decide)⟩

/-- C6: the (date, day of week) pairs of the rows after the header row are
those of the first row of each distinct date, the very first one left out,
in the same order; the result has as many elements as the input has distinct
dates; it is empty exactly when the input has no row. -/
theorem mergeData_rows_eq_first_of_each_date (table : List (String × List Row)) :
    ((mergeData table).tail.map fun m => (m.getD 0 "", m.getD 1 ""))
        = ((firstOfEachDate [] (events table)).tail.map fun e => (e.2.Date, e.2.DayOfWeek)) ∧
      (mergeData table).length = ((events table).map fun e => e.2.Date).dedup.length ∧
      (mergeData table = [] ↔ events table = []) := by
  cases hev : events table with
  | nil =>
    rw [mergeData_of_events_nil table hev]
    simp [firstOfEachDate]
  | cons e0 rest =>
    obtain ⟨c2, c3, c4, hdata⟩ := mergeData_of_events_cons table e0 rest hev
    have hE : firstOfEachDate [] (e0 :: rest) = e0 :: firstOfEachDate [e0.2.Date] rest := by
      simp [firstOfEachDate]
    refine ⟨?_, ?_, ?_⟩
    · rw [hdata, hE, List.tail_cons, List.tail_cons, List.map_map]
      apply List.map_congr_left
      intro e _
      have h0 : (mergedRowOf (events table) e).getD 0 "" = e.2.Date := dateOf_mergedRowOf _ _
      simp only [Function.comp, h0, dayOfWeek_mergedRowOf]
    · rw [← length_firstOfEachDate, hE, hdata]
      simp
    · rw [hdata]
      simp

/-- C2, amended: a row after the header row whose date `d` is not `"Date"`
has in column 2 the `" | "`-join, in processing order, of the source
identifiers of the input rows with date `d` and the preferential flag set,
one entry per row, after the leading empty identifiers are removed (hence the
empty string when there is no such row); likewise column 3 for available and
column 4 for impossible.  When no source identifier of the table is empty,
nothing is removed and the columns are the plain joins. -/
theorem mergeData_flag_columns (table : List (String × List Row)) (m : List String)
    (hm : m ∈ (mergeData table).tail) (hd : dateOf m ≠ "Date") :
    (m.getD 2 "" = joinSources ((sourcesOf Row.Preferential (dateOf m) (events table)).dropWhile
        fun s => decide (s = "")) ∧
      m.getD 3 "" = joinSources ((sourcesOf Row.Available (dateOf m) (events table)).dropWhile
        fun s => decide (s = "")) ∧
      m.getD 4 "" = joinSources ((sourcesOf Row.Impossible (dateOf m) (events table)).dropWhile
        fun s => decide (s = ""))) ∧
    ((∀ s ∈ table, s.1 ≠ "") →
      m.getD 2 "" = joinSources (sourcesOf Row.Preferential (dateOf m) (events table)) ∧
      m.getD 3 "" = joinSources (sourcesOf Row.Available (dateOf m) (events table)) ∧
      m.getD 4 "" = joinSources (sourcesOf Row.Impossible (dateOf m) (events table))) := by
  have key : m.getD 2 "" = joinSources ((sourcesOf Row.Preferential (dateOf m)
        (events table)).dropWhile fun s => decide (s = "")) ∧
      m.getD 3 "" = joinSources ((sourcesOf Row.Available (dateOf m) (events table)).dropWhile
        fun s => decide (s = "")) ∧
      m.getD 4 "" = joinSources ((sourcesOf Row.Impossible (dateOf m) (events table)).dropWhile
        fun s => decide (s = "")) := by
    cases hev : events table with
    | nil => rw [mergeData_of_events_nil table hev] at hm; simp at hm
    | cons e0 rest =>
      obtain ⟨c2, c3, c4, hdata⟩ := mergeData_of_events_cons table e0 rest hev
      rw [hdata, List.tail_cons] at hm
      obtain ⟨e, -, rfl⟩ := List.mem_map.1 hm
      rw [dateOf_mergedRowOf] at hd
      rw [dateOf_mergedRowOf, ← hev]
      simp only [mergedRowOf, if_neg hd, ← cellOf_eq_join]
      simp
  refine ⟨key, fun hne => ?_⟩
  simpa only [dropWhile_empty_of_sources _ _ table hne] using key

/-- Witness for C2: the row of 2024-01-02 in the result for the example
table, none of whose source identifiers is empty. -/
theorem mergeData_flag_columns_witness :
    ["2024-01-02", "Tue", "jan | feb", "", "feb"] ∈ (mergeData exampleTable).tail ∧
      dateOf ["2024-01-02", "Tue", "jan | feb", "", "feb"] ≠ "Date" ∧
      (∀ s ∈ exampleTable, s.1 ≠ "") ∧
      ("jan | feb" = joinSources (sourcesOf Row.Preferential "2024-01-02" (events exampleTable)) ∧
        "" = joinSources (sourcesOf Row.Available "2024-01-02" (events exampleTable)) ∧
        "feb" = joinSources (sourcesOf Row.Impossible "2024-01-02" (events exampleTable))) :=
  ⟨by decide, by decide, by decide,
    (mergeData_flag_columns exampleTable ["2024-01-02", "Tue", "jan | feb", "", "feb"]
      (by decide) (by decide)).2 (by decide)⟩

/-- Counterexample to C2 as stated: with the empty source identifier the
preferential column of date `d1` is `"b"` where the join of the identifiers
is `" | b"`; and the row of date `"Date"` keeps `"a"` where the join is
`"a | a"`, the second row of that date having been written into the header
row.  Both tables have distinct source identifiers. -/
theorem flag_column_join_refuted :
    (mergeData emptyIdTable = [headerRow, ["d1", "Tue", "b", "", ""]] ∧
      joinSources (sourcesOf Row.Preferential "d1" (events emptyIdTable)) = " | b") ∧
    (mergeData dateLiteralTable
        = [["Date", "Day of Week", "Preferential | a", "Available", "Impossible"],
            ["Date", "Tue", "a", "", ""]] ∧
      joinSources (sourcesOf Row.Preferential "Date" (events dateLiteralTable)) = "a | a") ∧
    ¬ (∀ table : List (String × List Row), (table.map Prod.fst).Nodup →
        ∀ m ∈ (mergeData table).tail,
          m.getD 2 "" = joinSources (sourcesOf Row.Preferential (dateOf m) (events table))) := by
  refine ⟨⟨by decide, by decide⟩, ⟨by decide, by decide⟩, fun h => ?_⟩
  have h1 := h emptyIdTable (by decide) ["d1", "Tue", "b", "", ""] (by decide)
  revert h1
  decide

/-- C3: in a table with distinct identifiers where source `jan` has exactly
one row of date 2024-01-01, `janRow`, source `feb` has exactly one, `febRow`,
no other source has a row of that date and the first row processed has
another date, the result has exactly one row of date 2024-01-01, and it is
`["2024-01-01", "Mon", "jan", "feb", ""]`; the order in which the sources are
visited is not constrained. -/
theorem scenario_jan_feb (table : List (String × List Row)) (rowsJan rowsFeb : List Row)
    (e0 : String × Row) (hids : (table.map Prod.fst).Nodup)
    (hjan : ("jan", rowsJan) ∈ table)
    (hjanRows : rowsJan.filter (fun r => decide (r.Date = "2024-01-01")) = [janRow])
    (hfeb : ("feb", rowsFeb) ∈ table)
    (hfebRows : rowsFeb.filter (fun r => decide (r.Date = "2024-01-01")) = [febRow])
    (hother : ∀ s ∈ table, s.1 ≠ "jan" → s.1 ≠ "feb" → ∀ r ∈ s.2, r.Date ≠ "2024-01-01")
    (hfirst : (events table).head? = some e0) (hne : e0.2.Date ≠ "2024-01-01") :
    (mergeData table).filter (fun m => decide (dateOf m = "2024-01-01"))
      = [["2024-01-01", "Mon", "jan", "feb", ""]] := by
  -- the rows of the date, in processing order
  have hL := flatMap_eq_of_two
    (fun s : String × List Row =>
      (s.2.filter fun r => decide (r.Date = "2024-01-01")).map fun r => (s.1, r))
    table hids ("jan", rowsJan) ("feb", rowsFeb) hjan hfeb
    (show "jan" ≠ "feb" by decide)
    (by
      intro s hs h1 h2
      have : s.2.filter (fun r => decide (r.Date = "2024-01-01")) = [] := by
        rw [List.filter_eq_nil_iff]
        intro r hr
        simpa using hother s hs h1 h2 r hr
      simp only [this, List.map_nil])
  rw [← filter_events] at hL
  simp only [hjanRows, hfebRows, List.map_cons, List.map_nil, List.singleton_append] at hL
  cases hev : events table with
  | nil => rw [hev] at hfirst; simp at hfirst
  | cons e1 rest =>
    have he1 : e1 = e0 := by
      rw [hev] at hfirst
      simpa using hfirst
    subst he1
    obtain ⟨c2, c3, c4, hdata⟩ := mergeData_of_events_cons table e1 rest hev
    -- the row that introduces the date
    have hmemL : ∀ e ∈ events table, e.2.Date = "2024-01-01" →
        e = ("jan", janRow) ∨ e = ("feb", febRow) := by
      intro e he hd
      have : e ∈ (events table).filter (fun e => decide (e.2.Date = "2024-01-01")) :=
        List.mem_filter.2 ⟨he, by simpa using hd⟩
      rcases hL with h | h <;> rw [h] at this <;> simp at this <;> tauto
    have hDmem : "2024-01-01" ∈ (events table).map fun e => e.2.Date := by
      have : ("jan", janRow) ∈ (events table).filter
          (fun e => decide (e.2.Date = "2024-01-01")) := by
        rcases hL with h | h <;> rw [h] <;> simp
      exact List.mem_map.2 ⟨_, (List.mem_filter.1 this).1, rfl⟩
    have hDE : "2024-01-01" ∈ (firstOfEachDate [e1.2.Date] rest).map fun e => e.2.Date := by
      rw [mem_dates_firstOfEachDate]
      rw [hev, List.map_cons, List.mem_cons] at hDmem
      refine ⟨by simpa using fun h => hne h.symm, ?_⟩
      rcases hDmem with h | h
      · exact absurd h.symm hne
      · exact h
    obtain ⟨e, heE, hed⟩ := List.mem_map.1 hDE
    have heEv : e ∈ events table := by
      rw [hev]
      exact List.mem_cons_of_mem _ (mem_firstOfEachDate heE).1
    have hdow : e.2.DayOfWeek = "Mon" := by
      rcases hmemL e heEv hed with h | h <;> rw [h] <;> rfl
    -- the cells of its row
    have hrow : mergedRowOf (events table) e = ["2024-01-01", "Mon", "jan", "feb", ""] := by
      unfold mergedRowOf
      rw [if_neg (by rw [hed]; decide), hed, hdow]
      simp only [sourcesOf_eq_filter]
      rcases hL with h | h <;> rw [h] <;> decide
    have hhead : ¬ decide (dateOf ["Date", "Day of Week", c2, c3, c4] = "2024-01-01") = true := by
      rw [decide_eq_true_eq]
      show ¬ "Date" = "2024-01-01"
      decide
    rw [hdata, List.filter_cons, if_neg hhead, List.filter_map]
    have hfun : ((fun m => decide (dateOf m = "2024-01-01")) ∘ mergedRowOf (events table))
        = fun x => decide (x.2.Date = e.2.Date) := by
      funext x
      simp only [Function.comp, dateOf_mergedRowOf, hed]
    rw [hfun, filter_date_eq_singleton (firstOfEachDate_nodup _ _) heE, List.map_singleton, hrow]

/-- Witness for C3: the example table, where `jan` is visited before `feb`
and a third source has no row of the date. -/
theorem scenario_jan_feb_witness :
    (exampleTable.map Prod.fst).Nodup ∧ ("jan", janRows) ∈ exampleTable ∧
      janRows.filter (fun r => decide (r.Date = "2024-01-01")) = [janRow] ∧
      ("feb", febRows) ∈ exampleTable ∧
      febRows.filter (fun r => decide (r.Date = "2024-01-01")) = [febRow] ∧
      (mergeData exampleTable).filter (fun m => decide (dateOf m = "2024-01-01"))
        = [["2024-01-01", "Mon", "jan", "feb", ""]] :=
  ⟨by decide, by decide, by decide, by decide, by decide,
    scenario_jan_feb exampleTable janRows febRows
      ("jan", ⟨"2023-12-31", "Sun", false, false, false⟩)
      (by decide) (by decide) (by decide) (by decide) (by decide) (by decide) (by decide)
      (by decide)⟩

/-- C4, evaluated where the code departs from it: two rows of date `"Date"`
with the preferential flag set; the second is written into the header row,
whose third cell becomes `"Preferential | a"`. -/
theorem mergeData_header_corrupted :
    events headerCorruptTable ≠ [] ∧
      mergeData headerCorruptTable
        = [["Date", "Day of Week", "Preferential | a", "Available", "Impossible"]] ∧
      (mergeData headerCorruptTable).head? ≠ some headerRow := by
  refine ⟨by decide, by decide, by decide⟩

/-- C10: the two visiting orders of the sources `a` and `b` give two results
with the same dates in a different row order, and the row of date `d1` has
`"a | b"` in the one and `"b | a"` in the other. -/
theorem mergeData_depends_on_visit_order :
    ∃ a b : String × List Row, a.1 ≠ b.1 ∧
      mergeData [a, b] ≠ mergeData [b, a] ∧
      ((mergeData [a, b]).map dateOf).Perm ((mergeData [b, a]).map dateOf) ∧
      (mergeData [a, b]).map dateOf ≠ (mergeData [b, a]).map dateOf ∧
      ["d1", "Tue", "a | b", "", ""] ∈ mergeData [a, b] ∧
      ["d1", "Tue", "b | a", "", ""] ∈ mergeData [b, a] := by
  refine ⟨orderSourceA, orderSourceB, by decide, by decide, ?_, by decide, by decide, by decide⟩
  have h1 : (mergeData [orderSourceA, orderSourceB]).map dateOf = ["Date", "d1", "d2"] := by
    decide
  have h2 : (mergeData [orderSourceB, orderSourceA]).map dateOf = ["Date", "d2", "d1"] := by
    decide
  rw [h1, h2]
  exact List.Perm.cons _ (List.Perm.swap _ _ _)

end ShiftSchedule
